import Mathlib

/-!
# LaLuna inventory valuation engine — verification

A shallow embedding of the inventory/costing core of `src/index.tsx`
(a point-of-sale and inventory manager), together with proofs checking
the natural-language specification against it.

JavaScript numbers are modelled as rationals (`ℚ`); `parseInt` results
as integers (`ℤ`).  The `date`/`timestamp` fields of ledger records are
omitted: no stock or cost derivation in the source reads them.
-/

namespace LaLuna

/-- One ledger entry of an ingredient's stock history
(source type `StockHistoryItem`; the `date` field is immaterial here). -/
structure StockHistoryItem where
  quantity : ℚ
  unitCost : ℚ
  deriving Repr, DecidableEq

/-- Source type `Ingredient`. -/
structure Ingredient where
  id : String
  name : String
  unit : String
  price : ℚ
  lowStockThreshold : ℤ
  stockHistory : List StockHistoryItem
  deriving Repr, DecidableEq

/-- Source type `RecipeItem`: one line of a product's recipe. -/
structure RecipeItem where
  ingredientId : String
  quantity : ℚ
  deriving Repr, DecidableEq

/-- Discriminant of source type `Product`. -/
inductive ProductType where
  | PRODUCT
  | MISC_COST
  deriving Repr, DecidableEq

/-- Source type `Product` (fields irrelevant to stock/cost omitted from claims
but kept for fidelity). -/
structure Product where
  id : String
  name : String
  price : ℚ
  quantity : ℚ
  cost : ℚ
  type : ProductType
  recipe : List RecipeItem
  deriving Repr, DecidableEq

/-- Discriminant of source type `CartItem`. -/
inductive CartItemType where
  | PRODUCT
  | INGREDIENT
  deriving Repr, DecidableEq

/-- Source type `CartItem`. -/
structure CartItem where
  itemId : String
  name : String
  price : ℚ
  quantity : ℚ
  type : CartItemType
  deriving Repr, DecidableEq

/-- Source type `StockCountItem`.  The source stores `actualStock` as
`number | ''`; the unset state `''` is modelled as `none`. -/
structure StockCountItem where
  ingredientId : String
  ingredientName : String
  unit : String
  expectedStock : ℚ
  actualStock : Option ℚ
  unitCost : ℚ
  deriving Repr, DecidableEq

/-- Source type `StockCount` (`id` and `timestamp` omitted: no claim reads
them). -/
structure StockCount where
  items : List StockCountItem
  totalVarianceValue : ℚ
  deriving Repr, DecidableEq

/-! ## Stock Ledger (src/index.tsx lines 129-138) -/

/-- `getIngredientTotalStock` (line 129): `reduce((sum, record) => sum +
record.quantity, 0)` over the stock history. -/
def getIngredientTotalStock (ingredient : Ingredient) : ℚ :=
  ingredient.stockHistory.foldl (fun sum record => sum + record.quantity) 0

/-- `getIngredientAverageCost` (line 133): 0 when total stock ≤ 0, else the
reduce-accumulated `Σ quantity·unitCost` divided by the total stock. -/
def getIngredientAverageCost (ingredient : Ingredient) : ℚ :=
  let totalStock := getIngredientTotalStock ingredient
  if totalStock ≤ 0 then 0
  else
    let totalCost := ingredient.stockHistory.foldl
      (fun sum record => sum + record.quantity * record.unitCost) 0
    totalCost / totalStock

/-! ## Spec-side ledger definitions (spec §3, §4.1)

Written from the specification's words — `Σ batch.quantity` and
`Σ(batch.quantity × batch.unitCost) / Σ(batch.quantity)` — to be compared
with the reduce-based source functions above. -/

/-- Spec §4.1: `totalStock(ingredient)` = sum of all batch quantities. -/
def totalStockSpec (ingredient : Ingredient) : ℚ :=
  (ingredient.stockHistory.map (·.quantity)).sum

/-- Spec §3: weighted-average cost over all batches, 0 when net stock ≤ 0. -/
def averageCostSpec (ingredient : Ingredient) : ℚ :=
  if totalStockSpec ingredient ≤ 0 then 0
  else (ingredient.stockHistory.map (fun b => b.quantity * b.unitCost)).sum /
    totalStockSpec ingredient

/-! ## Fold/sum bridging lemmas -/

theorem foldl_add_eq_sum {α : Type} (f : α → ℚ) (l : List α) (a : ℚ) :
    l.foldl (fun sum x => sum + f x) a = a + (l.map f).sum := by
  induction l generalizing a with
  | nil => simp
  | cons x xs ih => simp [List.foldl_cons, ih, add_assoc]

theorem getIngredientTotalStock_eq_spec (ingredient : Ingredient) :
    getIngredientTotalStock ingredient = totalStockSpec ingredient := by
  simp [getIngredientTotalStock, totalStockSpec, foldl_add_eq_sum]

theorem getIngredientAverageCost_eq_spec (ingredient : Ingredient) :
    getIngredientAverageCost ingredient = averageCostSpec ingredient := by
  simp only [getIngredientAverageCost, averageCostSpec,
    getIngredientTotalStock_eq_spec, foldl_add_eq_sum, zero_add]

/-- C1: `averageCost` is 0 when the summed stock is ≤ 0, and otherwise the
quantity-weighted cost sum over all batches divided by the summed stock. -/
theorem averageCost_characterization (ingredient : Ingredient) :
    getIngredientTotalStock ingredient =
      (ingredient.stockHistory.map (·.quantity)).sum ∧
    getIngredientAverageCost ingredient =
      (if (ingredient.stockHistory.map (·.quantity)).sum ≤ 0 then 0
       else (ingredient.stockHistory.map (fun b => b.quantity * b.unitCost)).sum /
         (ingredient.stockHistory.map (·.quantity)).sum) := by
  refine ⟨getIngredientTotalStock_eq_spec ingredient, ?_⟩
  rw [getIngredientAverageCost_eq_spec]
  rfl

/-! ## Recipe Resolver (src/index.tsx lines 227-244) -/

/-- `calculateProductCost` (line 227): reduce over recipe lines, skipping
lines whose ingredient id is not found. -/
def calculateProductCost (recipe : List RecipeItem) (ingredients : List Ingredient) : ℚ :=
  recipe.foldl (fun totalCost recipeItem =>
    match ingredients.find? (fun i => i.id == recipeItem.ingredientId) with
    | none => totalCost
    | some ingredient =>
        totalCost + getIngredientAverageCost ingredient * recipeItem.quantity) 0

/-- `calculateProductStock` (line 235): 0 for an empty recipe, otherwise the
minimum of the per-line stock levels, a level being 0 when the ingredient is
missing, its stock is exactly 0 or the line quantity is 0, and
`Math.floor(stock / quantity)` otherwise. -/
def calculateProductStock (recipe : List RecipeItem) (ingredients : List Ingredient) : ℤ :=
  if recipe.isEmpty then 0
  else
    let stockLevels := recipe.map (fun recipeItem =>
      match ingredients.find? (fun i => i.id == recipeItem.ingredientId) with
      | none => 0
      | some ingredient =>
          let ingredientStock := getIngredientTotalStock ingredient
          if ingredientStock = 0 ∨ recipeItem.quantity = 0 then 0
          else Rat.floor (ingredientStock / recipeItem.quantity))
    match stockLevels with
    | [] => 0
    | x :: xs => xs.foldl min x

/-! ## Spec-side Recipe Resolver definitions (spec §4.2) -/

/-- Spec §4.2: the contribution of one recipe line to sellable stock:
`floor(totalStock(ingredient) / line.quantity)`, or 0 when the ingredient is
missing, its stock is 0, or the line quantity is 0. -/
def lineSellable (ingredients : List Ingredient) (line : RecipeItem) : ℤ :=
  match ingredients.find? (fun i => i.id == line.ingredientId) with
  | none => 0
  | some ingredient =>
      if totalStockSpec ingredient = 0 ∨ line.quantity = 0 then 0
      else Rat.floor (totalStockSpec ingredient / line.quantity)

/-- Spec §4.2: `Σ over recipe lines of averageCost(ingredientById(line.ingredientId))
× line.quantity`, an unknown ingredient id contributing 0. -/
def recipeCostSpec (recipe : List RecipeItem) (ingredients : List Ingredient) : ℚ :=
  (recipe.map (fun line =>
    match ingredients.find? (fun i => i.id == line.ingredientId) with
    | none => 0
    | some ingredient => averageCostSpec ingredient * line.quantity)).sum

/-! ## Minimum-of-list lemmas -/

theorem foldl_min_mem {α : Type} [LinearOrder α] (xs : List α) :
    ∀ (x : α), xs.foldl min x ∈ x :: xs := by
  induction xs with
  | nil => intro x; simp
  | cons y ys ih =>
    intro x
    simp only [List.foldl_cons]
    rcases List.mem_cons.mp (ih (min x y)) with h1 | h1
    · rcases min_choice x y with hc | hc
      · rw [h1, hc]; exact List.mem_cons_self _ _
      · rw [h1, hc]; exact List.mem_cons.mpr (Or.inr (List.mem_cons_self _ _))
    · exact List.mem_cons.mpr (Or.inr (List.mem_cons.mpr (Or.inr h1)))

theorem foldl_min_le {α : Type} [LinearOrder α] (xs : List α) : ∀ (x : α),
    ∀ y ∈ x :: xs, xs.foldl min x ≤ y := by
  induction xs with
  | nil =>
    intro x y hy
    rw [List.mem_singleton] at hy
    simp [hy]
  | cons z zs ih =>
    intro x y hy
    simp only [List.foldl_cons]
    rcases List.mem_cons.mp hy with h1 | h1
    · rw [h1]
      exact le_trans (ih (min x z) (min x z) (List.mem_cons_self _ _)) (min_le_left _ _)
    rcases List.mem_cons.mp h1 with h2 | h2
    · rw [h2]
      exact le_trans (ih (min x z) (min x z) (List.mem_cons_self _ _)) (min_le_right _ _)
    · exact ih (min x z) y (List.mem_cons.mpr (Or.inr h2))

theorem lineLevel_eq_lineSellable (ingredients : List Ingredient) (recipeItem : RecipeItem) :
    (match ingredients.find? (fun i => i.id == recipeItem.ingredientId) with
      | none => (0 : ℤ)
      | some ingredient =>
          let ingredientStock := getIngredientTotalStock ingredient
          if ingredientStock = 0 ∨ recipeItem.quantity = 0 then 0
          else Rat.floor (ingredientStock / recipeItem.quantity)) =
    lineSellable ingredients recipeItem := by
  unfold lineSellable
  cases h : ingredients.find? (fun i => i.id == recipeItem.ingredientId) with
  | none => rfl
  | some ingredient => simp [getIngredientTotalStock_eq_spec]

/-- C2: a product's sellable stock is 0 for an empty recipe, and otherwise is
the minimum of the spec's per-line contributions: it is one of them and is a
lower bound of all of them. -/
theorem calculateProductStock_is_min (recipe : List RecipeItem) (ingredients : List Ingredient) :
    (recipe = [] → calculateProductStock recipe ingredients = 0) ∧
    (recipe ≠ [] →
      calculateProductStock recipe ingredients ∈ recipe.map (lineSellable ingredients) ∧
      ∀ line ∈ recipe, calculateProductStock recipe ingredients ≤ lineSellable ingredients line) := by
  constructor
  · intro h; subst h; rfl
  · intro hne
    cases recipe with
    | nil => exact absurd rfl hne
    | cons r rs =>
      have hmap : ∀ l : List RecipeItem,
          l.map (fun recipeItem =>
            match ingredients.find? (fun i => i.id == recipeItem.ingredientId) with
            | none => (0 : ℤ)
            | some ingredient =>
                let ingredientStock := getIngredientTotalStock ingredient
                if ingredientStock = 0 ∨ recipeItem.quantity = 0 then 0
                else Rat.floor (ingredientStock / recipeItem.quantity)) =
          l.map (lineSellable ingredients) := by
        intro l
        exact List.map_congr_left (fun x _ => lineLevel_eq_lineSellable ingredients x)
      have hstock : calculateProductStock (r :: rs) ingredients =
          (rs.map (lineSellable ingredients)).foldl min (lineSellable ingredients r) := by
        unfold calculateProductStock
        simp only [List.isEmpty_cons, ite_false, Bool.false_eq_true, if_false]
        rw [show ((r :: rs).map _) = (r :: rs).map (lineSellable ingredients) from hmap (r :: rs)]
        rfl
      rw [hstock]
      constructor
      · rw [List.map_cons]
        exact foldl_min_mem _ _
      · intro line hline
        have := foldl_min_le (rs.map (lineSellable ingredients)) (lineSellable ingredients r)
        rcases List.mem_cons.mp hline with h1 | h1
        · subst h1
          exact this _ (List.mem_cons_self _ _)
        · exact this _ (List.mem_cons.mpr (Or.inr (List.mem_map_of_mem _ h1)))

/-- Witness for `calculateProductStock_is_min` at a concrete one-line recipe:
1000 units of stock and 200 per unit of product yield sellable stock 5. -/
theorem calculateProductStock_is_min_witness :
    ([⟨"i1", (200 : ℚ)⟩] : List RecipeItem) ≠ [] ∧
    calculateProductStock [⟨"i1", (200 : ℚ)⟩]
        [⟨"i1", "Flour", "g", 0, 0, [⟨1000, 1/20⟩]⟩] ∈
      ([⟨"i1", (200 : ℚ)⟩] : List RecipeItem).map
        (lineSellable [⟨"i1", "Flour", "g", 0, 0, [⟨1000, 1/20⟩]⟩]) :=
  ⟨by simp,
   ((calculateProductStock_is_min [⟨"i1", (200 : ℚ)⟩]
      [⟨"i1", "Flour", "g", 0, 0, [⟨1000, 1/20⟩]⟩]).2 (by simp)).1⟩

theorem foldl_cost_eq (ingredients : List Ingredient) :
    ∀ (recipe : List RecipeItem) (a : ℚ),
    recipe.foldl (fun totalCost recipeItem =>
      match ingredients.find? (fun i => i.id == recipeItem.ingredientId) with
      | none => totalCost
      | some ingredient =>
          totalCost + getIngredientAverageCost ingredient * recipeItem.quantity) a =
    a + recipeCostSpec recipe ingredients := by
  intro recipe
  induction recipe with
  | nil => intro a; simp [recipeCostSpec]
  | cons r rs ih =>
    intro a
    simp only [List.foldl_cons]
    cases h : ingredients.find? (fun i => i.id == r.ingredientId) with
    | none =>
      rw [ih a]
      simp only [recipeCostSpec, List.map_cons, List.sum_cons, h]
      ring
    | some ingredient =>
      rw [ih (a + getIngredientAverageCost ingredient * r.quantity)]
      simp only [recipeCostSpec, List.map_cons, List.sum_cons, h,
        getIngredientAverageCost_eq_spec]
      ring

/-- C6: a product's cost is the sum over recipe lines of the ingredient's
average cost times the line quantity, an unknown ingredient id contributing
0 (the line is skipped, not an error). -/
theorem calculateProductCost_eq_spec (recipe : List RecipeItem) (ingredients : List Ingredient) :
    calculateProductCost recipe ingredients = recipeCostSpec recipe ingredients := by
  unfold calculateProductCost
  rw [foldl_cost_eq ingredients recipe 0, zero_add]

/-- C10: `calculateProductStock` can return a negative number: an existing
ingredient with negative total stock and a positive line quantity passes the
`stock = 0` guard, so the line contributes a negative floor. -/
theorem calculateProductStock_negative :
    getIngredientTotalStock ⟨"i1", "X", "g", 0, 0, [⟨-5, 0⟩]⟩ < 0 ∧
    calculateProductStock [⟨"i1", (1 : ℚ)⟩]
      [⟨"i1", "X", "g", 0, 0, [⟨-5, 0⟩]⟩] = -5 := by
  constructor
  · norm_num [getIngredientTotalStock]
  · norm_num [calculateProductStock, getIngredientTotalStock, Rat.floor]

/-! ## Batch appending (src/index.tsx lines 296-309, 1670-1679, 1180-1184)

All three mutation sites push one record onto `stockHistory`; `appendBatch`
is that shared pattern. -/

/-- Push one ledger record (the `stockHistory.push({...})` pattern of
restock, sale consumption and bulk adjustment). -/
def appendBatch (ingredient : Ingredient) (quantity unitCost : ℚ) : Ingredient :=
  { ingredient with
    stockHistory := ingredient.stockHistory ++ [⟨quantity, unitCost⟩] }

/-- Spec §3: net cost basis `Σ(batch.quantity × batch.unitCost)`. -/
def totalCostSpec (ingredient : Ingredient) : ℚ :=
  (ingredient.stockHistory.map (fun b => b.quantity * b.unitCost)).sum

theorem averageCostSpec_eq (ingredient : Ingredient) :
    averageCostSpec ingredient =
      if totalStockSpec ingredient ≤ 0 then 0
      else totalCostSpec ingredient / totalStockSpec ingredient := rfl

theorem totalStockSpec_appendBatch (ingredient : Ingredient) (q c : ℚ) :
    totalStockSpec (appendBatch ingredient q c) = totalStockSpec ingredient + q := by
  simp [totalStockSpec, appendBatch]

theorem totalCostSpec_appendBatch (ingredient : Ingredient) (q c : ℚ) :
    totalCostSpec (appendBatch ingredient q c) = totalCostSpec ingredient + q * c := by
  simp [totalCostSpec, appendBatch]

/-- C5: appending a sale-consumption batch of −q at the ingredient's current
average cost, then a restock batch of +q at that same cost, restores both
total stock and average cost to their pre-sale values. -/
theorem ledger_conservation (ingredient : Ingredient) (q : ℚ) :
    getIngredientTotalStock
        (appendBatch
          (appendBatch ingredient (-q) (getIngredientAverageCost ingredient))
          q (getIngredientAverageCost ingredient)) =
      getIngredientTotalStock ingredient ∧
    getIngredientAverageCost
        (appendBatch
          (appendBatch ingredient (-q) (getIngredientAverageCost ingredient))
          q (getIngredientAverageCost ingredient)) =
      getIngredientAverageCost ingredient := by
  have hts : totalStockSpec
      (appendBatch (appendBatch ingredient (-q) (getIngredientAverageCost ingredient)) q
        (getIngredientAverageCost ingredient)) = totalStockSpec ingredient := by
    rw [totalStockSpec_appendBatch, totalStockSpec_appendBatch]; ring
  have htc : totalCostSpec
      (appendBatch (appendBatch ingredient (-q) (getIngredientAverageCost ingredient)) q
        (getIngredientAverageCost ingredient)) = totalCostSpec ingredient := by
    rw [totalCostSpec_appendBatch, totalCostSpec_appendBatch]; ring
  constructor
  · rw [getIngredientTotalStock_eq_spec, getIngredientTotalStock_eq_spec, hts]
  · rw [getIngredientAverageCost_eq_spec
      (appendBatch (appendBatch ingredient (-q) (getIngredientAverageCost ingredient)) q
        (getIngredientAverageCost ingredient)),
      averageCostSpec_eq, hts, htc, ← averageCostSpec_eq, ← getIngredientAverageCost_eq_spec]

/-! ## Bulk edit (src/index.tsx lines 1163-1189)

`handleBulkSave` on the INGREDIENTS tab maps over the collection; for each
selected ingredient it optionally sets the price and low-stock threshold and,
when a stock value was entered, pushes one adjustment batch at unit cost 0
(the source comments "Cost is unknown in bulk edit"). -/

/-- The per-ingredient body of `handleBulkSave`'s `prev.map` (line 1172). -/
def bulkSaveIngredient (selected : String → Bool) (price : Option ℚ)
    (lowStockThreshold : Option ℤ) (stockValue : Option ℤ) (stockOp : String)
    (ing : Ingredient) : Ingredient :=
  if selected ing.id then
    let ing1 := match price with
      | none => ing
      | some p => { ing with price := p }
    let ing2 := match lowStockThreshold with
      | none => ing1
      | some t => { ing1 with lowStockThreshold := t }
    match stockValue with
    | none => ing2
    | some v =>
        let quantity : ℚ := if stockOp == "add" then (v : ℚ) else -(v : ℚ)
        { ing2 with stockHistory := ing2.stockHistory ++ [⟨quantity, 0⟩] }
  else ing

/-- `handleBulkSave` restricted to the INGREDIENTS branch. -/
def handleBulkSave (selected : String → Bool) (price : Option ℚ)
    (lowStockThreshold : Option ℤ) (stockValue : Option ℤ) (stockOp : String)
    (ingredients : List Ingredient) : List Ingredient :=
  ingredients.map (bulkSaveIngredient selected price lowStockThreshold stockValue stockOp)

theorem bulkSaveIngredient_history (selected : String → Bool) (price : Option ℚ)
    (lowStockThreshold : Option ℤ) (v : ℤ) (stockOp : String) (ing : Ingredient)
    (hsel : selected ing.id = true) :
    (bulkSaveIngredient selected price lowStockThreshold (some v) stockOp ing).stockHistory =
      ing.stockHistory ++ [⟨if stockOp == "add" then (v : ℚ) else -(v : ℚ), 0⟩] := by
  unfold bulkSaveIngredient
  rw [hsel]
  cases price <;> cases lowStockThreshold <;> rfl

/-- C9: a bulk-edit stock adjustment appends exactly one batch of +v (add)
or −v (subtract) at unit cost 0, and a bulk add of a positive quantity on an
ingredient with positive stock and positive average cost strictly decreases
the average cost. -/
theorem bulkSave_appends_zero_cost_batch (selected : String → Bool)
    (price : Option ℚ) (lowStockThreshold : Option ℤ) (v : ℤ) (stockOp : String)
    (ing : Ingredient) (hsel : selected ing.id = true) :
    (bulkSaveIngredient selected price lowStockThreshold (some v) stockOp ing).stockHistory =
      ing.stockHistory ++ [⟨if stockOp == "add" then (v : ℚ) else -(v : ℚ), 0⟩] ∧
    (stockOp = "add" → 0 < v → 0 < getIngredientTotalStock ing →
      0 < getIngredientAverageCost ing →
      getIngredientAverageCost
          (bulkSaveIngredient selected price lowStockThreshold (some v) stockOp ing) <
        getIngredientAverageCost ing) := by
  refine ⟨bulkSaveIngredient_history selected price lowStockThreshold v stockOp ing hsel, ?_⟩
  intro hop hv hstock havg
  subst hop
  have hhist :
      (bulkSaveIngredient selected price lowStockThreshold (some v) "add" ing).stockHistory =
        ing.stockHistory ++ [⟨(v : ℚ), 0⟩] := by
    rw [bulkSaveIngredient_history selected price lowStockThreshold v "add" ing hsel]
    norm_num
  have hts : totalStockSpec
      (bulkSaveIngredient selected price lowStockThreshold (some v) "add" ing) =
      totalStockSpec ing + (v : ℚ) := by
    simp [totalStockSpec, hhist]
  have htc : totalCostSpec
      (bulkSaveIngredient selected price lowStockThreshold (some v) "add" ing) =
      totalCostSpec ing := by
    simp [totalCostSpec, hhist]
  have hts0 : 0 < totalStockSpec ing := by
    rw [← getIngredientTotalStock_eq_spec]; exact hstock
  have hvq : (0 : ℚ) < (v : ℚ) := by exact_mod_cast hv
  have havgspec : getIngredientAverageCost ing =
      totalCostSpec ing / totalStockSpec ing := by
    rw [getIngredientAverageCost_eq_spec, averageCostSpec_eq, if_neg (not_le.mpr hts0)]
  have htc0 : 0 < totalCostSpec ing := by
    by_contra hle
    push_neg at hle
    have hdiv : totalCostSpec ing / totalStockSpec ing ≤ 0 :=
      div_nonpos_of_nonpos_of_nonneg hle (le_of_lt hts0)
    rw [havgspec] at havg
    linarith
  rw [getIngredientAverageCost_eq_spec, averageCostSpec_eq, hts, htc,
    if_neg (not_le.mpr (by linarith)), havgspec]
  exact div_lt_div_of_pos_left htc0 hts0 (by linarith)

/-- Witness for `bulkSave_appends_zero_cost_batch`: bulk-adding 5 units to an
ingredient holding 2 units at cost 10 drops the average cost below 10. -/
theorem bulkSave_appends_zero_cost_batch_witness :
    getIngredientAverageCost
        (bulkSaveIngredient (fun _ => true) none none (some 5) "add"
          ⟨"i1", "X", "g", 0, 0, [⟨2, 10⟩]⟩) <
      getIngredientAverageCost ⟨"i1", "X", "g", 0, 0, [⟨2, 10⟩]⟩ :=
  (bulkSave_appends_zero_cost_batch (fun _ => true) none none 5 "add"
      ⟨"i1", "X", "g", 0, 0, [⟨2, 10⟩]⟩ rfl).2 rfl (by norm_num)
    (by norm_num [getIngredientTotalStock])
    (by norm_num [getIngredientAverageCost, getIngredientTotalStock])

/-! ## Average-cost bounds (spec §8, claim C4)

Modelled from the spec: the minimum and maximum of `unitCost` over the
positive-quantity batches of an ingredient's history. -/

/-- Unit costs of the positive-quantity batches. -/
def positiveBatchCosts (ingredient : Ingredient) : List ℚ :=
  (ingredient.stockHistory.filter (fun b => decide (0 < b.quantity))).map (·.unitCost)

/-- `min(unitCost over positive batches)` (0 when there are none). -/
def minPositiveCost (ingredient : Ingredient) : ℚ :=
  match positiveBatchCosts ingredient with
  | [] => 0
  | x :: xs => xs.foldl min x

/-- `max(unitCost over positive batches)` (0 when there are none). -/
def maxPositiveCost (ingredient : Ingredient) : ℚ :=
  match positiveBatchCosts ingredient with
  | [] => 0
  | x :: xs => xs.foldl max x

/-- The claim "averageCost ∈ [min, max] of unitCost over positive batches
whenever totalStock > 0" is false on the code: a negative batch at unit cost
0 (the shape bulk-edit subtraction produces) leaves positive stock but drives
the average cost above every positive batch's cost. -/
theorem averageCost_bounds_counterexample :
    0 < getIngredientTotalStock ⟨"i1", "X", "g", 0, 0, [⟨2, 10⟩, ⟨-1, 0⟩]⟩ ∧
    maxPositiveCost ⟨"i1", "X", "g", 0, 0, [⟨2, 10⟩, ⟨-1, 0⟩]⟩ = 10 ∧
    getIngredientAverageCost ⟨"i1", "X", "g", 0, 0, [⟨2, 10⟩, ⟨-1, 0⟩]⟩ = 20 ∧
    ¬ getIngredientAverageCost ⟨"i1", "X", "g", 0, 0, [⟨2, 10⟩, ⟨-1, 0⟩]⟩ ≤
        maxPositiveCost ⟨"i1", "X", "g", 0, 0, [⟨2, 10⟩, ⟨-1, 0⟩]⟩ := by
  refine ⟨?_, ?_, ?_, ?_⟩
  · norm_num [getIngredientTotalStock]
  · norm_num [maxPositiveCost, positiveBatchCosts]
  · norm_num [getIngredientAverageCost, getIngredientTotalStock]
  · norm_num [getIngredientAverageCost, getIngredientTotalStock,
      maxPositiveCost, positiveBatchCosts]

theorem le_foldl_max {α : Type} [LinearOrder α] (xs : List α) : ∀ (x : α),
    ∀ y ∈ x :: xs, y ≤ xs.foldl max x := by
  induction xs with
  | nil =>
    intro x y hy
    rw [List.mem_singleton] at hy
    simp [hy]
  | cons z zs ih =>
    intro x y hy
    simp only [List.foldl_cons]
    rcases List.mem_cons.mp hy with h1 | h1
    · rw [h1]
      exact le_trans (le_max_left _ _) (ih (max x z) (max x z) (List.mem_cons_self _ _))
    rcases List.mem_cons.mp h1 with h2 | h2
    · rw [h2]
      exact le_trans (le_max_right _ _) (ih (max x z) (max x z) (List.mem_cons_self _ _))
    · exact ih (max x z) y (List.mem_cons.mpr (Or.inr h2))

theorem weighted_sum_le (M : ℚ) :
    ∀ (l : List StockHistoryItem), (∀ b ∈ l, 0 < b.quantity) →
    (∀ b ∈ l, b.unitCost ≤ M) →
    (l.map (fun b => b.quantity * b.unitCost)).sum ≤ M * (l.map (·.quantity)).sum := by
  intro l
  induction l with
  | nil => intro _ _; simp
  | cons b bs ih =>
    intro hq hc
    simp only [List.map_cons, List.sum_cons, mul_add]
    have h1 : b.quantity * b.unitCost ≤ M * b.quantity := by
      have := mul_le_mul_of_nonneg_left (hc b (List.mem_cons_self _ _))
        (le_of_lt (hq b (List.mem_cons_self _ _)))
      linarith [this]
    have h2 := ih (fun x hx => hq x (List.mem_cons.mpr (Or.inr hx)))
      (fun x hx => hc x (List.mem_cons.mpr (Or.inr hx)))
    linarith

theorem le_weighted_sum (m : ℚ) :
    ∀ (l : List StockHistoryItem), (∀ b ∈ l, 0 < b.quantity) →
    (∀ b ∈ l, m ≤ b.unitCost) →
    m * (l.map (·.quantity)).sum ≤ (l.map (fun b => b.quantity * b.unitCost)).sum := by
  intro l
  induction l with
  | nil => intro _ _; simp
  | cons b bs ih =>
    intro hq hc
    simp only [List.map_cons, List.sum_cons, mul_add]
    have h1 : m * b.quantity ≤ b.quantity * b.unitCost := by
      have := mul_le_mul_of_nonneg_left (hc b (List.mem_cons_self _ _))
        (le_of_lt (hq b (List.mem_cons_self _ _)))
      linarith [this]
    have h2 := ih (fun x hx => hq x (List.mem_cons.mpr (Or.inr hx)))
      (fun x hx => hc x (List.mem_cons.mpr (Or.inr hx)))
    linarith

/-- C4 as amended: when every batch in the history has positive quantity and
the total stock is positive, the average cost lies within the closed interval
from the minimum to the maximum unit cost over the (positive) batches. -/
theorem averageCost_bounds_for_positive_histories (ingredient : Ingredient)
    (hpos : ∀ b ∈ ingredient.stockHistory, 0 < b.quantity)
    (hstock : 0 < getIngredientTotalStock ingredient) :
    minPositiveCost ingredient ≤ getIngredientAverageCost ingredient ∧
    getIngredientAverageCost ingredient ≤ maxPositiveCost ingredient := by
  have hfilter : ingredient.stockHistory.filter (fun b => decide (0 < b.quantity)) =
      ingredient.stockHistory :=
    List.filter_eq_self.mpr (fun b hb => decide_eq_true (hpos b hb))
  have hcosts : positiveBatchCosts ingredient = ingredient.stockHistory.map (·.unitCost) := by
    rw [positiveBatchCosts, hfilter]
  have hts0 : 0 < totalStockSpec ingredient := by
    rw [← getIngredientTotalStock_eq_spec]; exact hstock
  have havg : getIngredientAverageCost ingredient =
      totalCostSpec ingredient / totalStockSpec ingredient := by
    rw [getIngredientAverageCost_eq_spec, averageCostSpec_eq, if_neg (not_le.mpr hts0)]
  cases hh : ingredient.stockHistory with
  | nil =>
    exfalso
    rw [getIngredientTotalStock_eq_spec, totalStockSpec, hh] at hstock
    simp at hstock
  | cons b bs =>
    have hcosts2 : positiveBatchCosts ingredient = b.unitCost :: bs.map (·.unitCost) := by
      rw [hcosts, hh, List.map_cons]
    have hmin : minPositiveCost ingredient =
        (bs.map (·.unitCost)).foldl min b.unitCost := by
      rw [minPositiveCost, hcosts2]
    have hmax : maxPositiveCost ingredient =
        (bs.map (·.unitCost)).foldl max b.unitCost := by
      rw [maxPositiveCost, hcosts2]
    have hub : ∀ x ∈ ingredient.stockHistory, x.unitCost ≤ maxPositiveCost ingredient := by
      intro x hx
      rw [hmax]
      refine le_foldl_max (bs.map (·.unitCost)) b.unitCost x.unitCost ?_
      rw [← List.map_cons, ← hh]
      exact List.mem_map_of_mem _ hx
    have hlb : ∀ x ∈ ingredient.stockHistory, minPositiveCost ingredient ≤ x.unitCost := by
      intro x hx
      rw [hmin]
      refine foldl_min_le (bs.map (·.unitCost)) b.unitCost x.unitCost ?_
      rw [← List.map_cons, ← hh]
      exact List.mem_map_of_mem _ hx
    constructor
    · rw [havg, le_div_iff₀ hts0]
      calc minPositiveCost ingredient * totalStockSpec ingredient =
          minPositiveCost ingredient * (ingredient.stockHistory.map (·.quantity)).sum := rfl
        _ ≤ (ingredient.stockHistory.map (fun b => b.quantity * b.unitCost)).sum :=
          le_weighted_sum _ _ hpos hlb
        _ = totalCostSpec ingredient := rfl
    · rw [havg, div_le_iff₀ hts0]
      calc totalCostSpec ingredient =
          (ingredient.stockHistory.map (fun b => b.quantity * b.unitCost)).sum := rfl
        _ ≤ maxPositiveCost ingredient * (ingredient.stockHistory.map (·.quantity)).sum :=
          weighted_sum_le _ _ hpos hub
        _ = maxPositiveCost ingredient * totalStockSpec ingredient := rfl

/-- Witness for `averageCost_bounds_for_positive_histories`: two acquisition
batches at costs 10 and 20 give an average of 14, inside [10, 20]. -/
theorem averageCost_bounds_for_positive_histories_witness :
    minPositiveCost ⟨"i1", "X", "g", 0, 0, [⟨3, 10⟩, ⟨2, 20⟩]⟩ ≤
      getIngredientAverageCost ⟨"i1", "X", "g", 0, 0, [⟨3, 10⟩, ⟨2, 20⟩]⟩ ∧
    getIngredientAverageCost ⟨"i1", "X", "g", 0, 0, [⟨3, 10⟩, ⟨2, 20⟩]⟩ ≤
      maxPositiveCost ⟨"i1", "X", "g", 0, 0, [⟨3, 10⟩, ⟨2, 20⟩]⟩ :=
  averageCost_bounds_for_positive_histories ⟨"i1", "X", "g", 0, 0, [⟨3, 10⟩, ⟨2, 20⟩]⟩
    (by
      intro b hb
      rw [List.mem_cons, List.mem_singleton] at hb
      rcases hb with h | h <;> subst h <;> norm_num)
    (by norm_num [getIngredientTotalStock])

/-! ## Stock count (src/index.tsx lines 891-951) -/

/-- One draft line of `NewStockCountView` (line 900): expected stock and unit
cost pre-populated from the ledger, actual count unset. -/
def draftItem (ing : Ingredient) : StockCountItem :=
  { ingredientId := ing.id
    ingredientName := ing.name
    unit := ing.unit
    expectedStock := getIngredientTotalStock ing
    actualStock := none
    unitCost := getIngredientAverageCost ing }

/-- The draft count lines (the `useEffect` at line 899). -/
def draftCountItems (ingredients : List Ingredient) : List StockCountItem :=
  ingredients.map draftItem

/-- `handleCountChange` (line 910): set or clear the actual count on the
lines carrying the given ingredient id. -/
def handleCountChange (items : List StockCountItem) (id : String) (value : Option ℚ) :
    List StockCountItem :=
  items.map (fun item =>
    if item.ingredientId == id then { item with actualStock := value } else item)

/-- A sequence of `handleCountChange` edits applied to a draft. -/
def applyEdits (edits : List (String × Option ℚ)) (items : List StockCountItem) :
    List StockCountItem :=
  edits.foldl (fun it e => handleCountChange it e.1 e.2) items

/-- The same sequence of edits viewed on a single line. -/
def editItem (edits : List (String × Option ℚ)) (item : StockCountItem) : StockCountItem :=
  edits.foldl (fun it e =>
    if it.ingredientId == e.1 then { it with actualStock := e.2 } else it) item

/-- The per-line finalization of `handleFinalizeCount` (lines 920-924): an
unset actual count defaults to the expected stock. -/
def finalizeItem (item : StockCountItem) : StockCountItem :=
  { item with actualStock := some (item.actualStock.getD item.expectedStock) }

/-- The finalize step of `handleFinalizeCount` (lines 919-932): defaulted
actuals, and the accumulated `variance × unitCost` total. -/
def finalizeCount (countItems : List StockCountItem) : StockCount :=
  { items := countItems.map finalizeItem
    totalVarianceValue := countItems.foldl (fun acc item =>
      acc + (item.actualStock.getD item.expectedStock - item.expectedStock) * item.unitCost) 0 }

/-- The optional apply step of `handleFinalizeCount` (lines 936-947): replace
each counted ingredient's history with the single batch of the counted
quantity at the captured unit cost.  (Finalized count lines always carry
`some` for `actualStock`; the `getD 0` default is never reached there.) -/
def applyCount (ingredients : List Ingredient) (finalItems : List StockCountItem) :
    List Ingredient :=
  ingredients.map (fun ing =>
    match finalItems.find? (fun ci => ci.ingredientId == ing.id) with
    | none => ing
    | some countedItem =>
        { ing with stockHistory := [⟨countedItem.actualStock.getD 0, countedItem.unitCost⟩] })

theorem applyEdits_map {α : Type} (l : List α) :
    ∀ (edits : List (String × Option ℚ)) (f : α → StockCountItem),
    applyEdits edits (l.map f) = l.map (fun x => editItem edits (f x)) := by
  intro edits
  induction edits with
  | nil => intro f; rfl
  | cons e es ih =>
    intro f
    show applyEdits es (handleCountChange (l.map f) e.1 e.2) = _
    have hstep : handleCountChange (l.map f) e.1 e.2 =
        l.map (fun x =>
          if (f x).ingredientId == e.1 then { f x with actualStock := e.2 } else f x) := by
      rw [handleCountChange, List.map_map]
      rfl
    rw [hstep]
    exact ih _

theorem editItem_proj (edits : List (String × Option ℚ)) :
    ∀ (item : StockCountItem),
    (editItem edits item).ingredientId = item.ingredientId ∧
    (editItem edits item).expectedStock = item.expectedStock ∧
    (editItem edits item).unitCost = item.unitCost := by
  induction edits with
  | nil => intro item; exact ⟨rfl, rfl, rfl⟩
  | cons e es ih =>
    intro item
    have hcons : editItem (e :: es) item =
        editItem es
          (if item.ingredientId == e.1 then { item with actualStock := e.2 } else item) := rfl
    rw [hcons]
    cases hb : item.ingredientId == e.1 with
    | false =>
      simp only [Bool.false_eq_true, if_false]
      exact ih item
    | true =>
      simp only [if_true]
      exact ih { item with actualStock := e.2 }

/-- C7: after any sequence of count edits on a draft built from the
ingredient list, (1) a line whose actual count is unset finalizes to an
actual equal to its expected stock, (2) the recorded total variance value is
`Σ (actual − expected) × unitCostAtCount` with unset actuals defaulted, and
(3) every line still carries the pre-populated `expectedStock =
totalStock(ingredient)` and `unitCostAtCount = averageCost(ingredient)`. -/
theorem stockCount_finalize_spec (ingredients : List Ingredient)
    (edits : List (String × Option ℚ)) :
    (∀ item : StockCountItem, item.actualStock = none →
      (finalizeItem item).actualStock = some item.expectedStock) ∧
    (finalizeCount (applyEdits edits (draftCountItems ingredients))).totalVarianceValue =
      ((applyEdits edits (draftCountItems ingredients)).map (fun item =>
        (item.actualStock.getD item.expectedStock - item.expectedStock) * item.unitCost)).sum ∧
    (applyEdits edits (draftCountItems ingredients)).map
        (fun item => (item.expectedStock, item.unitCost)) =
      ingredients.map
        (fun ing => (getIngredientTotalStock ing, getIngredientAverageCost ing)) := by
  refine ⟨?_, ?_, ?_⟩
  · intro item h
    rw [finalizeItem, h]
    rfl
  · rw [finalizeCount]
    exact foldl_add_eq_sum
      (fun item => (item.actualStock.getD item.expectedStock - item.expectedStock) * item.unitCost)
      (applyEdits edits (draftCountItems ingredients)) 0 |>.trans (zero_add _)
  · rw [draftCountItems, applyEdits_map ingredients edits draftItem, List.map_map]
    refine List.map_congr_left ?_
    intro ing _
    have h := editItem_proj edits (draftItem ing)
    simp only [Function.comp_apply, h.2.1, h.2.2]
    rfl

/-- Witness for `stockCount_finalize_spec`: the draft line of a concrete
ingredient is unset and finalizes to its expected stock. -/
theorem stockCount_finalize_spec_witness :
    (finalizeItem (draftItem ⟨"i1", "Flour", "g", 0, 0, [⟨1000, 1/20⟩]⟩)).actualStock =
      some (draftItem ⟨"i1", "Flour", "g", 0, 0, [⟨1000, 1/20⟩]⟩).expectedStock :=
  (stockCount_finalize_spec [⟨"i1", "Flour", "g", 0, 0, [⟨1000, 1/20⟩]⟩] []).1
    (draftItem ⟨"i1", "Flour", "g", 0, 0, [⟨1000, 1/20⟩]⟩) rfl

theorem find_map_of_nodup (f : Ingredient → StockCountItem)
    (hf : ∀ x, (f x).ingredientId = x.id) :
    ∀ (l : List Ingredient), (l.map (·.id)).Nodup → ∀ ing ∈ l,
    (l.map f).find? (fun ci => ci.ingredientId == ing.id) = some (f ing) := by
  intro l
  induction l with
  | nil => intro _ ing h; cases h
  | cons x xs ih =>
    intro hnd ing hing
    rw [List.map_cons] at hnd ⊢
    have hnd2 := List.nodup_cons.mp hnd
    rcases List.mem_cons.mp hing with h | h
    · subst h
      rw [List.find?_cons_of_pos]
      rw [hf]
      exact beq_self_eq_true _
    · have hne : x.id ≠ ing.id := by
        intro hEq
        exact hnd2.1 (hEq ▸ List.mem_map_of_mem (·.id) h)
      rw [List.find?_cons_of_neg]
      · exact ih hnd2.2 ing h
      · rw [hf]
        exact fun hp => hne (beq_iff_eq.mp hp)

/-- Replacing an ingredient's history with the single batch
`(totalStock, averageCost)` preserves both derived quantities. -/
theorem singleton_batch_preserves (ing : Ingredient) :
    getIngredientTotalStock
        { ing with stockHistory :=
            [⟨getIngredientTotalStock ing, getIngredientAverageCost ing⟩] } =
      getIngredientTotalStock ing ∧
    getIngredientAverageCost
        { ing with stockHistory :=
            [⟨getIngredientTotalStock ing, getIngredientAverageCost ing⟩] } =
      getIngredientAverageCost ing := by
  have hts : getIngredientTotalStock
      { ing with stockHistory :=
          [⟨getIngredientTotalStock ing, getIngredientAverageCost ing⟩] } =
      getIngredientTotalStock ing := by
    rw [getIngredientTotalStock_eq_spec]
    simp [totalStockSpec]
  refine ⟨hts, ?_⟩
  rw [getIngredientAverageCost_eq_spec
      { ing with stockHistory :=
          [⟨getIngredientTotalStock ing, getIngredientAverageCost ing⟩] },
    averageCostSpec_eq, ← getIngredientTotalStock_eq_spec, hts]
  have htc : totalCostSpec
      { ing with stockHistory :=
          [⟨getIngredientTotalStock ing, getIngredientAverageCost ing⟩] } =
      getIngredientTotalStock ing * getIngredientAverageCost ing := by
    simp [totalCostSpec]
  rw [htc]
  by_cases h : getIngredientTotalStock ing ≤ 0
  · rw [if_pos h]
    have : getIngredientAverageCost ing = 0 := by
      rw [getIngredientAverageCost]
      simp only [h, if_true]
    rw [this]
  · rw [if_neg h]
    exact mul_div_cancel_left₀ _ (by exact fun hz => h (le_of_eq hz))

/-- C8: finalizing a count whose every line's (defaulted) actual equals its
expected yields total variance 0, and applying that count leaves every
ingredient's total stock and average cost unchanged. -/
theorem reconciliation_idempotent (ingredients : List Ingredient)
    (edits : List (String × Option ℚ))
    (hall : ∀ item ∈ applyEdits edits (draftCountItems ingredients),
      item.actualStock.getD item.expectedStock = item.expectedStock)
    (hnodup : (ingredients.map (·.id)).Nodup) :
    (finalizeCount (applyEdits edits (draftCountItems ingredients))).totalVarianceValue = 0 ∧
    (applyCount ingredients
          (finalizeCount (applyEdits edits (draftCountItems ingredients))).items).map
        (fun ing => (getIngredientTotalStock ing, getIngredientAverageCost ing)) =
      ingredients.map
        (fun ing => (getIngredientTotalStock ing, getIngredientAverageCost ing)) := by
  have hmapped : applyEdits edits (draftCountItems ingredients) =
      ingredients.map (fun ing => editItem edits (draftItem ing)) := by
    rw [draftCountItems]
    exact applyEdits_map ingredients edits draftItem
  constructor
  · rw [finalizeCount]
    rw [foldl_add_eq_sum
      (fun item => (item.actualStock.getD item.expectedStock - item.expectedStock) * item.unitCost)
      (applyEdits edits (draftCountItems ingredients)) 0, zero_add]
    refine List.sum_eq_zero ?_
    intro x hx
    rcases List.mem_map.mp hx with ⟨item, hitem, hval⟩
    rw [← hval, hall item hitem]
    ring
  · have hfinal : (finalizeCount (applyEdits edits (draftCountItems ingredients))).items =
        ingredients.map (fun ing => finalizeItem (editItem edits (draftItem ing))) := by
      rw [finalizeCount, hmapped, List.map_map]
      rfl
    have hK : ∀ x : Ingredient,
        (finalizeItem (editItem edits (draftItem x))).ingredientId = x.id := by
      intro x
      rw [show (finalizeItem (editItem edits (draftItem x))).ingredientId =
          (editItem edits (draftItem x)).ingredientId from rfl,
        (editItem_proj edits (draftItem x)).1]
      rfl
    have happly : applyCount ingredients
        (finalizeCount (applyEdits edits (draftCountItems ingredients))).items =
        ingredients.map (fun ing =>
          { ing with stockHistory :=
              [⟨getIngredientTotalStock ing, getIngredientAverageCost ing⟩] }) := by
      rw [applyCount, hfinal]
      refine List.map_congr_left ?_
      intro ing hing
      rw [find_map_of_nodup (fun x => finalizeItem (editItem edits (draftItem x))) hK
        ingredients hnodup ing hing]
      have hmem : editItem edits (draftItem ing) ∈
          applyEdits edits (draftCountItems ingredients) := by
        rw [hmapped]
        exact List.mem_map_of_mem _ hing
      have hact : (finalizeItem (editItem edits (draftItem ing))).actualStock =
          some (getIngredientTotalStock ing) := by
        rw [finalizeItem, hall _ hmem, (editItem_proj edits (draftItem ing)).2.1]
        rfl
      have hcost : (finalizeItem (editItem edits (draftItem ing))).unitCost =
          getIngredientAverageCost ing := by
        rw [show (finalizeItem (editItem edits (draftItem ing))).unitCost =
            (editItem edits (draftItem ing)).unitCost from rfl,
          (editItem_proj edits (draftItem ing)).2.2]
        rfl
      show { ing with stockHistory :=
          [⟨(finalizeItem (editItem edits (draftItem ing))).actualStock.getD 0,
            (finalizeItem (editItem edits (draftItem ing))).unitCost⟩] } =
        { ing with stockHistory :=
            [⟨getIngredientTotalStock ing, getIngredientAverageCost ing⟩] }
      rw [hact, hcost]
      rfl
    rw [happly, List.map_map]
    refine List.map_congr_left ?_
    intro ing _
    have h := singleton_batch_preserves ing
    simp only [Function.comp_apply, h.1, h.2]

/-- Witness for `reconciliation_idempotent`: a one-ingredient count with no
actual entered finalizes to zero variance and applying it preserves the
ledger-derived values. -/
theorem reconciliation_idempotent_witness :
    (finalizeCount (applyEdits []
        (draftCountItems [⟨"i1", "Flour", "g", 0, 0, [⟨1000, 1/20⟩]⟩]))).totalVarianceValue =
      0 ∧
    (applyCount [⟨"i1", "Flour", "g", 0, 0, [⟨1000, 1/20⟩]⟩]
          (finalizeCount (applyEdits []
            (draftCountItems [⟨"i1", "Flour", "g", 0, 0, [⟨1000, 1/20⟩]⟩]))).items).map
        (fun ing => (getIngredientTotalStock ing, getIngredientAverageCost ing)) =
      [⟨"i1", "Flour", "g", 0, 0, [⟨1000, 1/20⟩]⟩].map
        (fun ing => (getIngredientTotalStock ing, getIngredientAverageCost ing)) :=
  reconciliation_idempotent [⟨"i1", "Flour", "g", 0, 0, [⟨1000, 1/20⟩]⟩] []
    (by
      intro item h
      rw [show applyEdits [] (draftCountItems [⟨"i1", "Flour", "g", 0, 0, [⟨1000, 1/20⟩]⟩]) =
          [draftItem ⟨"i1", "Flour", "g", 0, 0, [⟨1000, 1/20⟩]⟩] from rfl,
        List.mem_singleton] at h
      rw [h]
      rfl)
    (by simp)

/-! ## Sale finalization (src/index.tsx lines 1665-1700)

`handleFinalizeTransaction` copies the ingredient list, then walks the cart:
a PRODUCT line walks its product's recipe, an INGREDIENT line consumes
directly.  Every average cost passed to `processIngredient` is computed from
`ingredients` — the ledger state at sale start — while the pushes land in
the copied list. -/

/-- `processIngredient` (line 1670): find the first ingredient with the given
id in the updated list and push a consumption batch of `-qty` at the given
average cost; no-op when the id is not present. -/
def processIngredient : List Ingredient → String → ℚ → ℚ → List Ingredient
  | [], _, _, _ => []
  | ing :: rest, id, qty, avgCost =>
      if ing.id == id then
        { ing with stockHistory := ing.stockHistory ++ [⟨-qty, avgCost⟩] } :: rest
      else ing :: processIngredient rest id qty avgCost

/-- One cart line's processing inside the `cart.forEach` (lines 1669-1698). -/
def processCartItem (inventory : List Product) (ingredients : List Ingredient)
    (updated : List Ingredient) (cartItem : CartItem) : List Ingredient :=
  match cartItem.type with
  | CartItemType.PRODUCT =>
      match inventory.find? (fun p => p.id == cartItem.itemId) with
      | none => updated
      | some product =>
          product.recipe.foldl (fun upd recipeItem =>
            match ingredients.find? (fun i => i.id == recipeItem.ingredientId) with
            | none => upd
            | some ingredient =>
                processIngredient upd recipeItem.ingredientId
                  (recipeItem.quantity * cartItem.quantity)
                  (getIngredientAverageCost ingredient)) updated
  | CartItemType.INGREDIENT =>
      match ingredients.find? (fun i => i.id == cartItem.itemId) with
      | none => updated
      | some ingredient =>
          processIngredient updated cartItem.itemId cartItem.quantity
            (getIngredientAverageCost ingredient)

/-- Step 1 of `handleFinalizeTransaction` (lines 1665-1700): the ingredient
list after all of the sale's deductions. -/
def finalizeTransactionIngredients (inventory : List Product)
    (ingredients : List Ingredient) (cart : List CartItem) : List Ingredient :=
  cart.foldl (processCartItem inventory ingredients) ingredients

/-! ## Spec-side sale deduction (spec §4.3) -/

/-- Spec §4.3: the consumption batches one cart line appends to the
ingredient `ing`: for a PRODUCT line, one batch of
`-(recipeLine.quantity × cartLine.quantity)` per recipe line naming `ing`;
for an INGREDIENT line naming `ing`, one batch of `-cartLine.quantity`;
each at `ing`'s sale-start average cost. -/
def saleBatchesForItem (inventory : List Product) (ing : Ingredient)
    (cartItem : CartItem) : List StockHistoryItem :=
  match cartItem.type with
  | CartItemType.PRODUCT =>
      match inventory.find? (fun p => p.id == cartItem.itemId) with
      | none => []
      | some product =>
          (product.recipe.filter (fun r => r.ingredientId == ing.id)).map
            (fun r => ⟨-(r.quantity * cartItem.quantity), getIngredientAverageCost ing⟩)
  | CartItemType.INGREDIENT =>
      if cartItem.itemId == ing.id then
        [⟨-cartItem.quantity, getIngredientAverageCost ing⟩]
      else []

/-- Spec §4.3: all consumption batches the sale appends to `ing`, in cart
order. -/
def saleBatchesFor (inventory : List Product) (cart : List CartItem)
    (ing : Ingredient) : List StockHistoryItem :=
  cart.flatMap (saleBatchesForItem inventory ing)

/-! ## Deduction bookkeeping for the sale proof -/

/-- The `(ingredientId, quantity, averageCost)` triples one cart line asks
`processIngredient` to apply. -/
def itemDeductions (inventory : List Product) (ingredients : List Ingredient)
    (cartItem : CartItem) : List (String × ℚ × ℚ) :=
  match cartItem.type with
  | CartItemType.PRODUCT =>
      match inventory.find? (fun p => p.id == cartItem.itemId) with
      | none => []
      | some product =>
          product.recipe.filterMap (fun r =>
            match ingredients.find? (fun i => i.id == r.ingredientId) with
            | none => none
            | some ingredient =>
                some (r.ingredientId, r.quantity * cartItem.quantity,
                  getIngredientAverageCost ingredient))
  | CartItemType.INGREDIENT =>
      match ingredients.find? (fun i => i.id == cartItem.itemId) with
      | none => []
      | some ingredient =>
          [(cartItem.itemId, cartItem.quantity, getIngredientAverageCost ingredient)]

/-- The ledger record a deduction triple turns into. -/
def deductionBatch (d : String × ℚ × ℚ) : StockHistoryItem :=
  ⟨-d.2.1, d.2.2⟩

/-- Apply a list of deduction triples through `processIngredient`. -/
def applyDeductions (updated : List Ingredient) (ds : List (String × ℚ × ℚ)) :
    List Ingredient :=
  ds.foldl (fun u d => processIngredient u d.1 d.2.1 d.2.2) updated

theorem recipe_foldl_eq (ingredients : List Ingredient) (q : ℚ) :
    ∀ (recipe : List RecipeItem) (upd : List Ingredient),
    recipe.foldl (fun upd recipeItem =>
      match ingredients.find? (fun i => i.id == recipeItem.ingredientId) with
      | none => upd
      | some ingredient =>
          processIngredient upd recipeItem.ingredientId (recipeItem.quantity * q)
            (getIngredientAverageCost ingredient)) upd =
    applyDeductions upd (recipe.filterMap (fun r =>
      match ingredients.find? (fun i => i.id == r.ingredientId) with
      | none => none
      | some ingredient =>
          some (r.ingredientId, r.quantity * q, getIngredientAverageCost ingredient))) := by
  intro recipe
  induction recipe with
  | nil => intro upd; rfl
  | cons r rs ih =>
    intro upd
    simp only [List.foldl_cons, List.filterMap_cons]
    cases h : ingredients.find? (fun i => i.id == r.ingredientId) with
    | none => exact ih upd
    | some ingredient =>
      exact ih (processIngredient upd r.ingredientId (r.quantity * q)
        (getIngredientAverageCost ingredient))

theorem processCartItem_eq (inventory : List Product) (ingredients : List Ingredient)
    (c : CartItem) (upd : List Ingredient) :
    processCartItem inventory ingredients upd c =
      applyDeductions upd (itemDeductions inventory ingredients c) := by
  obtain ⟨itemId, name, price, quantity, ty⟩ := c
  cases ty with
  | PRODUCT =>
    show (match inventory.find? (fun p => p.id == itemId) with
      | none => upd
      | some product => product.recipe.foldl _ upd) = _
    rw [itemDeductions]
    cases hp : inventory.find? (fun p => p.id == itemId) with
    | none => rfl
    | some product => exact recipe_foldl_eq ingredients quantity product.recipe upd
  | INGREDIENT =>
    show (match ingredients.find? (fun i => i.id == itemId) with
      | none => upd
      | some ingredient => processIngredient upd itemId quantity _) = _
    rw [itemDeductions]
    cases hi : ingredients.find? (fun i => i.id == itemId) with
    | none => rfl
    | some ingredient => rfl

theorem applyDeductions_append (upd : List Ingredient)
    (ds1 ds2 : List (String × ℚ × ℚ)) :
    applyDeductions upd (ds1 ++ ds2) = applyDeductions (applyDeductions upd ds1) ds2 := by
  rw [applyDeductions, applyDeductions, applyDeductions, List.foldl_append]

theorem cart_foldl_eq (inventory : List Product) (ingredients : List Ingredient) :
    ∀ (cart : List CartItem) (upd : List Ingredient),
    cart.foldl (processCartItem inventory ingredients) upd =
      applyDeductions upd (cart.flatMap (itemDeductions inventory ingredients)) := by
  intro cart
  induction cart with
  | nil => intro upd; rfl
  | cons c cs ih =>
    intro upd
    rw [List.foldl_cons, List.flatMap_cons, applyDeductions_append,
      ← processCartItem_eq]
    exact ih _

theorem processIngredient_ids (id : String) (q c : ℚ) :
    ∀ (l : List Ingredient),
    (processIngredient l id q c).map (·.id) = l.map (·.id) := by
  intro l
  induction l with
  | nil => rfl
  | cons x xs ih =>
    cases hb : x.id == id with
    | false =>
      simp only [processIngredient, hb, Bool.false_eq_true, if_false, List.map_cons]
      rw [ih]
    | true =>
      simp only [processIngredient, hb, if_true, List.map_cons]

theorem processIngredient_eq_map (id : String) (q c : ℚ) :
    ∀ (l : List Ingredient), (l.map (·.id)).Nodup →
    processIngredient l id q c = l.map (fun ing =>
      if ing.id == id then
        { ing with stockHistory := ing.stockHistory ++ [⟨-q, c⟩] }
      else ing) := by
  intro l
  induction l with
  | nil => intro _; rfl
  | cons x xs ih =>
    intro hnd
    rw [List.map_cons] at hnd
    have hnd2 := List.nodup_cons.mp hnd
    cases hb : x.id == id with
    | false =>
      simp only [processIngredient, hb, Bool.false_eq_true, if_false, List.map_cons]
      rw [ih hnd2.2]
    | true =>
      simp only [processIngredient, hb, if_true, List.map_cons]
      have htail : xs.map (fun ing =>
          if ing.id == id then
            { ing with stockHistory := ing.stockHistory ++ [⟨-q, c⟩] }
          else ing) = xs := by
        refine (List.map_congr_left ?_).trans (List.map_id xs)
        intro y hy
        have hyne : y.id ≠ id := by
          intro hEq
          exact hnd2.1 (beq_iff_eq.mp hb ▸ hEq ▸ List.mem_map_of_mem (·.id) hy)
        have hyb : (y.id == id) = false := by
          cases hyb2 : y.id == id with
          | false => rfl
          | true => exact absurd (beq_iff_eq.mp hyb2) hyne
        simp only [hyb, Bool.false_eq_true, if_false, id_eq]
      rw [htail]

theorem applyDeductions_eq :
    ∀ (ds : List (String × ℚ × ℚ)) (l : List Ingredient), (l.map (·.id)).Nodup →
    applyDeductions l ds = l.map (fun ing =>
      { ing with stockHistory := ing.stockHistory ++
          (ds.filter (fun d => d.1 == ing.id)).map deductionBatch }) := by
  intro ds
  induction ds with
  | nil =>
    intro l _
    show l = _
    symm
    refine (List.map_congr_left ?_).trans (List.map_id l)
    intro ing _
    rw [List.filter_nil, List.map_nil, List.append_nil]
    rfl
  | cons d ds ih =>
    intro l hnd
    show applyDeductions (processIngredient l d.1 d.2.1 d.2.2) ds = _
    have hnd2 : ((processIngredient l d.1 d.2.1 d.2.2).map (·.id)).Nodup := by
      rw [processIngredient_ids]
      exact hnd
    rw [ih _ hnd2, processIngredient_eq_map d.1 d.2.1 d.2.2 l hnd, List.map_map]
    refine List.map_congr_left ?_
    intro ing _
    simp only [Function.comp_apply]
    cases hb : ing.id == d.1 with
    | true =>
      have hb2 : (d.1 == ing.id) = true := beq_iff_eq.mpr (beq_iff_eq.mp hb).symm
      simp only [hb, if_true, List.filter_cons, hb2, List.map_cons]
      show ({ ing with stockHistory :=
          (ing.stockHistory ++ [⟨-d.2.1, d.2.2⟩]) ++
            (ds.filter (fun e => e.1 == ing.id)).map deductionBatch } : Ingredient) = _
      rw [List.append_assoc]
      rfl
    | false =>
      have hb2 : (d.1 == ing.id) = false := by
        cases hc : d.1 == ing.id with
        | false => rfl
        | true =>
          exfalso
          have := beq_iff_eq.mpr (beq_iff_eq.mp hc).symm
          rw [hb] at this
          exact Bool.false_ne_true this
      simp only [hb, Bool.false_eq_true, if_false, List.filter_cons, hb2]

theorem find_ingredient_of_nodup :
    ∀ (l : List Ingredient), (l.map (·.id)).Nodup →
    ∀ ing ∈ l, l.find? (fun i => i.id == ing.id) = some ing := by
  intro l
  induction l with
  | nil => intro _ ing h; cases h
  | cons x xs ih =>
    intro hnd ing hing
    rw [List.map_cons] at hnd
    have hnd2 := List.nodup_cons.mp hnd
    rcases List.mem_cons.mp hing with h | h
    · subst h
      rw [List.find?_cons_of_pos]
      exact beq_self_eq_true _
    · have hne : x.id ≠ ing.id := by
        intro hEq
        exact hnd2.1 (hEq ▸ List.mem_map_of_mem (·.id) h)
      rw [List.find?_cons_of_neg]
      · exact ih hnd2.2 ing h
      · exact fun hp => hne (beq_iff_eq.mp hp)

theorem recipe_deds_filter (ingredients : List Ingredient) (ing : Ingredient)
    (hfind : ingredients.find? (fun i => i.id == ing.id) = some ing) (q : ℚ) :
    ∀ (recipe : List RecipeItem),
    ((recipe.filterMap (fun r =>
        match ingredients.find? (fun i => i.id == r.ingredientId) with
        | none => none
        | some ingredient =>
            some (r.ingredientId, r.quantity * q,
              getIngredientAverageCost ingredient))).filter
      (fun d => d.1 == ing.id)).map deductionBatch =
    (recipe.filter (fun r => r.ingredientId == ing.id)).map
      (fun r => ⟨-(r.quantity * q), getIngredientAverageCost ing⟩) := by
  intro recipe
  induction recipe with
  | nil => rfl
  | cons r rs ih =>
    simp only [List.filterMap_cons, List.filter_cons]
    cases hb : r.ingredientId == ing.id with
    | true =>
      have hfind2 : ingredients.find? (fun i => i.id == r.ingredientId) = some ing := by
        rw [beq_iff_eq.mp hb]
        exact hfind
      rw [hfind2]
      simp only [List.filter_cons, hb, if_true, List.map_cons, ih, deductionBatch]
    | false =>
      cases hf2 : ingredients.find? (fun i => i.id == r.ingredientId) with
      | none =>
        simp only [Bool.false_eq_true, if_false]
        exact ih
      | some ing2 =>
        simp only [List.filter_cons, hb, Bool.false_eq_true, if_false]
        exact ih

theorem itemDeductions_filter_eq (inventory : List Product)
    (ingredients : List Ingredient) (ing : Ingredient)
    (hfind : ingredients.find? (fun i => i.id == ing.id) = some ing) (c : CartItem) :
    ((itemDeductions inventory ingredients c).filter (fun d => d.1 == ing.id)).map
      deductionBatch = saleBatchesForItem inventory ing c := by
  obtain ⟨itemId, name, price, quantity, ty⟩ := c
  cases ty with
  | PRODUCT =>
    simp only [itemDeductions, saleBatchesForItem]
    cases hp : inventory.find? (fun p => p.id == itemId) with
    | none => rfl
    | some product => exact recipe_deds_filter ingredients ing hfind quantity product.recipe
  | INGREDIENT =>
    simp only [itemDeductions, saleBatchesForItem]
    cases hb : itemId == ing.id with
    | true =>
      have hfind2 : ingredients.find? (fun i => i.id == itemId) = some ing := by
        rw [beq_iff_eq.mp hb]
        exact hfind
      rw [hfind2]
      simp only [List.filter_cons, hb, if_true, List.filter_nil, List.map_cons,
        List.map_nil, deductionBatch]
    | false =>
      cases hf2 : ingredients.find? (fun i => i.id == itemId) with
      | none => simp only [List.filter_nil, List.map_nil, Bool.false_eq_true, if_false]
      | some ing2 =>
        simp only [List.filter_cons, hb, Bool.false_eq_true, if_false,
          List.filter_nil, List.map_nil]

theorem saleDeductions_filter_eq (inventory : List Product)
    (ingredients : List Ingredient) (ing : Ingredient)
    (hfind : ingredients.find? (fun i => i.id == ing.id) = some ing) :
    ∀ (cart : List CartItem),
    ((cart.flatMap (itemDeductions inventory ingredients)).filter
      (fun d => d.1 == ing.id)).map deductionBatch =
      saleBatchesFor inventory cart ing := by
  intro cart
  induction cart with
  | nil => rfl
  | cons c cs ih =>
    rw [List.flatMap_cons, List.filter_append, List.map_append,
      itemDeductions_filter_eq inventory ingredients ing hfind c, ih]
    rfl

/-- C3: with distinct ingredient ids, finalizing a sale maps every ingredient
to itself with the sale's consumption batches appended: one batch of
`-(recipeLine.quantity × cartLine.quantity)` per matching recipe line of each
PRODUCT cart line and one batch of `-cartLine.quantity` per matching
INGREDIENT cart line, every batch priced at the ingredient's average cost in
the sale-start ledger state. -/
theorem finalizeTransaction_appends_sale_batches (inventory : List Product)
    (ingredients : List Ingredient) (cart : List CartItem)
    (hnodup : (ingredients.map (·.id)).Nodup) :
    finalizeTransactionIngredients inventory ingredients cart =
      ingredients.map (fun ing =>
        { ing with stockHistory :=
            ing.stockHistory ++ saleBatchesFor inventory cart ing }) := by
  rw [finalizeTransactionIngredients,
    cart_foldl_eq inventory ingredients cart ingredients,
    applyDeductions_eq _ _ hnodup]
  refine List.map_congr_left ?_
  intro ing hing
  rw [saleDeductions_filter_eq inventory ingredients ing
    (find_ingredient_of_nodup ingredients hnodup ing hing) cart]

/-- Witness for `finalizeTransaction_appends_sale_batches`: selling two
breads (recipe: 200 flour each) appends the single batch ⟨-400, 0.05⟩ to
flour. -/
theorem finalizeTransaction_appends_sale_batches_witness :
    finalizeTransactionIngredients
        [⟨"p1", "Bread", 60, 0, 0, ProductType.PRODUCT, [⟨"i1", 200⟩]⟩]
        [⟨"i1", "Flour", "g", 0, 0, [⟨1000, 1/20⟩]⟩]
        [⟨"p1", "Bread", 60, 2, CartItemType.PRODUCT⟩] =
      ([⟨"i1", "Flour", "g", 0, 0, [⟨1000, 1/20⟩]⟩] : List Ingredient).map (fun ing =>
        { ing with stockHistory :=
            ing.stockHistory ++
              (saleBatchesFor
                [⟨"p1", "Bread", 60, 0, 0, ProductType.PRODUCT, [⟨"i1", 200⟩]⟩]
                [⟨"p1", "Bread", 60, 2, CartItemType.PRODUCT⟩] ing) }) :=
  finalizeTransaction_appends_sale_batches
    [⟨"p1", "Bread", 60, 0, 0, ProductType.PRODUCT, [⟨"i1", 200⟩]⟩]
    [⟨"i1", "Flour", "g", 0, 0, [⟨1000, 1/20⟩]⟩]
    [⟨"p1", "Bread", 60, 2, CartItemType.PRODUCT⟩]
    (by simp)

end LaLuna
